import Mathlib

/-!
Shallow embedding of the quordle heterogrammic-group search engine
(`src/main.rs`) and verification of its specification.

The program encodes each 5-letter word as a 26-bit letter mask, reduces the
word list to one representative per anagram class, assigns dense ids, builds a
forward adjacency index (`heterogrammic`), and grows groups of pairwise
letter-disjoint words generation by generation until no group can be extended.

Machine bit vectors (`BitVec` of width 26 in the Rust source) are embedded as
`Nat` with bitwise `&&&` / `|||`; word ids (`usize`) are embedded as `Nat`.
-/

/-- `word_letters` from the source: fold over the characters of the word,
setting bit `c - 'a'` for each character `c`. -/
def word_letters (word : String) : Nat :=
  word.toList.foldl (fun m c => m ||| 2 ^ (c.toNat - 97)) 0

/-- The `Word` struct: surface text, letter mask, dense registry id. -/
structure Word where
  word : String
  letters : Nat
  index : Nat
deriving DecidableEq, Repr, Inhabited

/-- `Word::new`. -/
def Word.new (index : Nat) (word : String) : Word :=
  { word := word, letters := word_letters word, index := index }

/-- `GroupNode`: one word plus a parent link. The source field
`parent: Option<Arc<GroupNode>>` is embedded by inlining the `Option` into
the two constructors: `root w` is `parent = None`, `link w p` is
`parent = Some(p)` (`Arc` sharing is pure value sharing here). -/
inductive GroupNode where
  | root (word : Word)
  | link (word : Word) (parent : GroupNode)
deriving DecidableEq, Repr

/-- The word stored in a node. -/
def GroupNode.word : GroupNode → Word
  | .root w => w
  | .link w _ => w

/-- `GroupNode::words`: traverse the chain from this node (the most recently
added word) back to the root (the first-added word). -/
def GroupNode.words : GroupNode → List Word
  | .root w => [w]
  | .link w p => w :: p.words

/-- `WordGroup`: length, union letter mask, and the head of the chain. -/
structure WordGroup where
  length : Nat
  letters : Nat
  node : GroupNode
deriving DecidableEq, Repr

/-- `WordGroup::new`: the singleton group of one word. -/
def WordGroup.new (word : Word) : WordGroup :=
  { length := 1, letters := word.letters, node := .root word }

/-- `WordGroup::word`: the word of the chain head, i.e. the most recently
added member. -/
def WordGroup.word (g : WordGroup) : Word :=
  g.node.word

/-- `WordGroup::words`: all members, most recently added first. -/
def WordGroup.words (g : WordGroup) : List Word :=
  g.node.words

/-- `WordGroup::add`: fail when the new word's letters collide with the
group's union mask, otherwise share the existing chain as the parent of a
fresh node. -/
def WordGroup.add (g : WordGroup) (word : Word) : Option WordGroup :=
  if word.letters &&& g.letters ≠ 0 then none
  else some
    { length := 1 + g.length
      letters := g.letters ||| word.letters
      node := .link word g.node }

/-- One row of the adjacency index: ids of the words after `word` in the
registry whose mask is disjoint from `word`'s mask. -/
def hetRow (ws : List Word) (word : Word) : List Nat :=
  ((ws.drop (word.index + 1)).filter
    (fun w => word.letters &&& w.letters == 0)).map Word.index

/-- The `heterogrammic` adjacency index (`Vec<HashSet<usize>>` in the source,
embedded as a list of id lists; only membership is observed). -/
def heterogrammic (ws : List Word) : List (List Nat) :=
  ws.map (hetRow ws)

/-- The seed candidate set used by the extension step of the main loop:
`heterogrammic[g.word().index]`, the adjacency row of the chain head
(the most recently added member). -/
def seedSet (het : List (List Nat)) (g : WordGroup) : List Nat :=
  het.getD g.word.index []

/-- The candidate filter of the main loop: keep a seed id `j` when every
member's id is below `j` and `j` lies in the adjacency row of every member
other than the chain head (`g.words().skip(1)`). -/
def extendCandidates (het : List (List Nat)) (g : WordGroup) : List Nat :=
  (seedSet het g).filter (fun j =>
    g.words.all (fun w => w.index < j) &&
    (g.words.drop 1).all (fun w => (het.getD w.index []).contains j))

/-- One generation step of the fixpoint loop: extend every group by every
surviving candidate, keeping the successful `add` results. -/
def step (ws : List Word) (het : List (List Nat)) (groups : List WordGroup) :
    List WordGroup :=
  groups.flatMap (fun g =>
    (extendCandidates het g).filterMap (fun j => g.add (ws.getD j default)))

/-- `gen ws k` is the generation of length-`k+1` groups: `gen ws 0` is the
singleton generation (`groups` before the loop), and each further generation
is one `step`. -/
def gen (ws : List Word) : Nat → List WordGroup
  | 0 => ws.map WordGroup.new
  | k + 1 => step ws (heterogrammic ws) (gen ws k)

/-- Member ids of a group, in chain-traversal order (most recently added
first). -/
def chainIds (g : WordGroup) : List Nat :=
  g.words.map Word.index

/-- The letter mask of the registry word with id `i`. -/
def maskAt (ws : List Word) (i : Nat) : Nat :=
  (ws.getD i default).letters

/-- The registry invariant established by `enumerate` in the source: the word
at position `i` has id `i`. -/
def validWords (ws : List Word) : Prop :=
  ws.map Word.index = List.range ws.length

instance (ws : List Word) : Decidable (validWords ws) :=
  inferInstanceAs (Decidable (ws.map Word.index = List.range ws.length))

/-- Union of the letter masks of a list of words. -/
def unionMask (l : List Word) : Nat :=
  l.foldr (fun w m => w.letters ||| m) 0

/-- Brute-force description of a heterogrammic id set, represented by its
strictly decreasing enumeration: ids in range, pairwise disjoint masks. -/
def disjointSubset (ws : List Word) (l : List Nat) : Prop :=
  l.Pairwise (· > ·) ∧ (∀ i ∈ l, i < ws.length) ∧
    l.Pairwise (fun i j => maskAt ws i &&& maskAt ws j = 0)

/-- Well-formedness of a group with respect to the registry: coherent length
and union mask, members drawn from the registry, strictly decreasing ids
along the chain, pairwise disjoint member masks. -/
def goodGroup (ws : List Word) (g : WordGroup) : Prop :=
  g.length = g.words.length ∧
  g.letters = unionMask g.words ∧
  (∀ w ∈ g.words, w.index < ws.length ∧ ws.getD w.index default = w) ∧
  (chainIds g).Pairwise (· > ·) ∧
  g.words.Pairwise (fun w v => w.letters &&& v.letters = 0)

/-- The registry built by `enumerate` + `Word::new` in `main`. -/
def mkRegistry (ws : List String) : List Word :=
  ws.enum.map (fun p => Word.new p.1 p.2)

/-- Modelled from the spec: the *first-added* word of a group, "the earliest
id in the chain — found by traversing to the chain's root" (§4.5 step 1).
The source has no such traversal; this definition exists to compare the
spec's description of the candidate seeding with the code's. -/
def GroupNode.rootWord : GroupNode → Word
  | .root w => w
  | .link _ p => p.rootWord

/-- Modelled from the spec: the seed candidate set as §4.5 step 1 describes
it, the adjacency row of the first-added (root) word. -/
def claimSeed (het : List (List Nat)) (g : WordGroup) : List Nat :=
  het.getD g.node.rootWord.index []

/- ### Anagram class reducer -/

/-- Insert one word into the anagram map, keyed by its letter mask
(`anagrams.entry(letters).or_default().push(word)` in the source; the
`HashMap` is embedded as an association list and only its key-value content
is observed). -/
def addAnagram (m : List (Nat × List String)) (w : String) :
    List (Nat × List String) :=
  match m with
  | [] => [(word_letters w, [w])]
  | (k, v) :: rest =>
    if k = word_letters w then (k, v ++ [w]) :: rest
    else (k, v) :: addAnagram rest w

/-- The anagram map after inserting every input word. -/
def anagramClasses (ws : List String) : List (Nat × List String) :=
  ws.foldl addAnagram []

/-- `anagrams.values().map(|v| v[0].clone())`: one representative (the first
inserted word) per anagram class. -/
def representatives (ws : List String) : List String :=
  (anagramClasses ws).map (fun kv => kv.2.headD "")

/- ### Progress display sampling -/

/-- `groups.choose(&mut thread_rng())`: pick an element of the slice, `none`
exactly when the slice is empty. A random draw is embedded as an arbitrary
natural `r`, reduced modulo the length. -/
def choose (gs : List WordGroup) (r : Nat) : Option WordGroup :=
  gs[r % gs.length]?

/-- One iteration of the body of the main loop: break (return `none`) when
the current generation is empty, otherwise emit the five-ish display samples
and the next generation. -/
def loopIteration (ws : List Word) (gs : List WordGroup) (rs : List Nat) :
    Option (List (Option WordGroup) × List WordGroup) :=
  if gs.isEmpty then none
  else some (rs.map (choose gs), step ws (heterogrammic ws) gs)

/-- The generation sequence with the display sampling threaded through: the
random stream `rng` feeds only the sample log, never the group computation,
mirroring the source where `thread_rng` is consumed by `println!` alone. -/
def runR (ws : List Word) (rng : Nat → List Nat) :
    Nat → List WordGroup × List (List (Option WordGroup))
  | 0 =>
    (ws.map WordGroup.new, [(rng 0).map (choose (ws.map WordGroup.new))])
  | k + 1 =>
    let p := runR ws rng k
    let gs := step ws (heterogrammic ws) p.1
    (gs, p.2 ++ [(rng (k + 1)).map (choose gs)])

/- ### Alphabet counting for termination -/

/-- The set of alphabet bits (positions `0..26`) set in a mask. -/
def alphaBits (m : Nat) : Finset Nat :=
  (Finset.range 26).filter (fun i => m.testBit i)

/-- Number of alphabet bits set in a mask. -/
def bitsCard (m : Nat) : Nat :=
  (alphaBits m).card

/-- Union of the alphabet-bit sets of a list of words. -/
def unionBits (l : List Word) : Finset Nat :=
  l.foldr (fun w s => alphaBits w.letters ∪ s) ∅

/-- Invariant of the anagram map: distinct keys; every class nonempty, with
each member word's mask equal to the class key. -/
def mapInv (m : List (Nat × List String)) : Prop :=
  (m.map Prod.fst).Nodup ∧
    ∀ kv ∈ m, kv.2 ≠ [] ∧ ∀ w ∈ kv.2, word_letters w = kv.1

/- ### Concrete registries for witnesses -/

/-- Tiny registry: masks 1, 2, 3; only words 0 and 1 are disjoint. -/
def ws3 : List Word :=
  mkRegistry ["a", "b", "ab"]

/-- The unique length-2 group over `ws3`: words 0 and 1. -/
def g01 : WordGroup :=
  { length := 2, letters := 3
    node := .link (Word.new 1 "b") (.root (Word.new 0 "a")) }

/-- A registry of two disjoint 5-letter words. -/
def ws5 : List Word :=
  mkRegistry ["abcde", "fghij"]

/-- The group obtained by extending `g` with the registry word of id `j`
(the successful-`add` result shape). -/
def extGroup (ws : List Word) (g : WordGroup) (j : Nat) : WordGroup :=
  { length := 1 + g.length
    letters := g.letters ||| (ws.getD j default).letters
    node := .link (ws.getD j default) g.node }

/- ### Bitmask lemmas -/

theorem land_eq_zero_iff {m n : Nat} :
    m &&& n = 0 ↔ ∀ i, m.testBit i = false ∨ n.testBit i = false := by
  constructor
  · intro h i
    have h2 := congrArg (fun x => Nat.testBit x i) h
    simp only [Nat.testBit_land, Nat.zero_testBit] at h2
    rcases Bool.and_eq_false_iff.mp h2 with h1 | h1
    · exact Or.inl h1
    · exact Or.inr h1
  · intro h
    apply Nat.eq_of_testBit_eq
    intro i
    simp only [Nat.testBit_land, Nat.zero_testBit]
    rcases h i with h1 | h1 <;> simp [h1]

theorem land_lor_eq_zero_iff {a b c : Nat} :
    a &&& (b ||| c) = 0 ↔ a &&& b = 0 ∧ a &&& c = 0 := by
  simp only [land_eq_zero_iff, Nat.testBit_lor]
  constructor
  · intro h
    constructor <;> intro i <;> rcases h i with h1 | h1
    · exact Or.inl h1
    · exact Or.inr (Bool.or_eq_false_iff.mp h1).1
    · exact Or.inl h1
    · exact Or.inr (Bool.or_eq_false_iff.mp h1).2
  · intro ⟨h1, h2⟩ i
    rcases h1 i with hb | hb
    · exact Or.inl hb
    · rcases h2 i with hc | hc
      · exact Or.inl hc
      · exact Or.inr (by simp [hb, hc])

theorem land_unionMask_eq_zero {w : Nat} {l : List Word} :
    w &&& unionMask l = 0 ↔ ∀ v ∈ l, w &&& v.letters = 0 := by
  induction l with
  | nil => simp [unionMask]
  | cons v t ih =>
    have : unionMask (v :: t) = v.letters ||| unionMask t := rfl
    rw [this, land_lor_eq_zero_iff]
    simp only [List.mem_cons]
    constructor
    · rintro ⟨h1, h2⟩ u (rfl | hu)
      · exact h1
      · exact ih.mp h2 u hu
    · intro h
      exact ⟨h v (Or.inl rfl), ih.mpr fun u hu => h u (Or.inr hu)⟩

/- ### Chain basics -/

theorem GroupNode.words_eq_cons (n : GroupNode) :
    n.words = n.word :: n.words.tail := by
  cases n <;> rfl

theorem GroupNode.words_ne_nil (n : GroupNode) : n.words ≠ [] := by
  cases n <;> simp [GroupNode.words]

theorem WordGroup.words_head_cons (g : WordGroup) :
    g.words = g.word :: g.words.tail :=
  g.node.words_eq_cons

theorem WordGroup.word_mem_words (g : WordGroup) : g.word ∈ g.words := by
  rw [g.words_head_cons]; exact List.mem_cons_self _ _

theorem WordGroup.mem_of_mem_tail {g : WordGroup} {w : Word}
    (h : w ∈ g.words.tail) : w ∈ g.words := by
  rw [g.words_head_cons]; exact List.mem_cons_of_mem _ h

/- ### Registry lemmas -/

theorem valid_getElem_index {ws : List Word} (hv : validWords ws)
    {i : Nat} (hi : i < ws.length) : ws[i].index = i := by
  have h1 : (ws.map Word.index)[i]? = (List.range ws.length)[i]? := by rw [hv]
  rw [List.getElem?_map, List.getElem?_range hi,
    List.getElem?_eq_getElem (by simpa using hi)] at h1
  simpa using h1

theorem valid_mem {ws : List Word} (hv : validWords ws) {w : Word}
    (hw : w ∈ ws) : ∃ h : w.index < ws.length, ws[w.index] = w := by
  rcases List.mem_iff_getElem.mp hw with ⟨i, hi, rfl⟩
  rw [valid_getElem_index hv hi]
  exact ⟨hi, rfl⟩

theorem valid_getD {ws : List Word} (hv : validWords ws) {w : Word}
    (hw : w ∈ ws) : ws.getD w.index default = w := by
  rcases valid_mem hv hw with ⟨h, h2⟩
  rw [List.getD_eq_getElem _ _ h, h2]

theorem maskAt_getElem {ws : List Word} {i : Nat} (hi : i < ws.length) :
    maskAt ws i = ws[i].letters := by
  rw [maskAt, List.getD_eq_getElem _ _ hi]

theorem valid_mem_drop {ws : List Word} (hv : validWords ws) {v : Word}
    {n : Nat} : v ∈ ws.drop n ↔ v ∈ ws ∧ n ≤ v.index := by
  constructor
  · intro h
    rcases List.mem_iff_getElem.mp h with ⟨i, hi, heq⟩
    rw [List.getElem_drop] at heq
    have hni : n + i < ws.length := by
      have := hi; rw [List.length_drop] at this; omega
    refine ⟨heq ▸ List.getElem_mem hni, ?_⟩
    rw [← heq, valid_getElem_index hv hni]
    omega
  · rintro ⟨hmem, hn⟩
    rcases valid_mem hv hmem with ⟨hlt, heq⟩
    apply List.mem_iff_getElem.mpr
    have hb : v.index - n < (ws.drop n).length := by
      rw [List.length_drop]; omega
    refine ⟨v.index - n, hb, ?_⟩
    rw [List.getElem_drop]
    have hsum : n + (v.index - n) = v.index := by omega
    simp only [hsum]
    exact heq

/- ### Adjacency index lemmas -/

theorem mem_hetRow {ws : List Word} (hv : validWords ws) {w : Word} {j : Nat} :
    j ∈ hetRow ws w ↔
      w.index < j ∧ j < ws.length ∧ w.letters &&& maskAt ws j = 0 := by
  rw [hetRow]
  constructor
  · intro h
    rcases List.mem_map.mp h with ⟨v, hvmem, rfl⟩
    rcases List.mem_filter.mp hvmem with ⟨hvdrop, hp⟩
    rcases (valid_mem_drop hv).mp hvdrop with ⟨hvws, hle⟩
    rcases valid_mem hv hvws with ⟨hlt, heq⟩
    refine ⟨by omega, hlt, ?_⟩
    rw [maskAt_getElem hlt, heq]
    simpa using hp
  · rintro ⟨hwj, hjN, hdisj⟩
    apply List.mem_map.mpr
    refine ⟨ws[j], List.mem_filter.mpr ⟨?_, ?_⟩, valid_getElem_index hv hjN⟩
    · apply (valid_mem_drop hv).mpr
      refine ⟨List.getElem_mem hjN, ?_⟩
      rw [valid_getElem_index hv hjN]
      omega
    · rw [maskAt_getElem hjN] at hdisj
      simpa using hdisj

theorem hetRow_nodup {ws : List Word} (hv : validWords ws) (w : Word) :
    (hetRow ws w).Nodup := by
  have hsub : ((ws.drop (w.index + 1)).filter
      (fun v => w.letters &&& v.letters == 0)).Sublist ws :=
    (List.filter_sublist _).trans (List.drop_sublist _ _)
  have : (hetRow ws w).Sublist (ws.map Word.index) := hsub.map _
  apply this.nodup
  rw [hv]
  exact List.nodup_range _

theorem heterogrammic_getD {ws : List Word} {i : Nat} (hi : i < ws.length) :
    (heterogrammic ws).getD i [] = hetRow ws ws[i] := by
  rw [heterogrammic,
    List.getD_eq_getElem _ _ (by simpa using hi), List.getElem_map]

/- ### Candidate-set characterization -/

theorem mem_extendCandidates {ws : List Word} (hv : validWords ws)
    {g : WordGroup} (hg : goodGroup ws g) {j : Nat} :
    j ∈ extendCandidates (heterogrammic ws) g ↔
      j < ws.length ∧
        ∀ w ∈ g.words, w.index < j ∧ w.letters &&& maskAt ws j = 0 := by
  obtain ⟨-, -, hmem, -, -⟩ := hg
  have hhead := hmem g.word g.word_mem_words
  have hheadN : g.word.index < ws.length := hhead.1
  have hheadD : ws[g.word.index] = g.word := by
    have := hhead.2
    rwa [List.getD_eq_getElem _ _ hheadN] at this
  rw [extendCandidates, seedSet, heterogrammic_getD hheadN, hheadD]
  rw [List.mem_filter, mem_hetRow hv]
  constructor
  · rintro ⟨⟨hwj, hjN, hdisj⟩, hp⟩
    rw [Bool.and_eq_true, List.all_eq_true, List.all_eq_true] at hp
    refine ⟨hjN, ?_⟩
    intro w hw
    have hw2 : w = g.word ∨ w ∈ g.words.tail := by
      rw [g.words_head_cons] at hw
      exact List.mem_cons.mp hw
    rcases hw2 with rfl | h
    · exact ⟨hwj, hdisj⟩
    · have h1 := hp.1 w (g.mem_of_mem_tail h)
      have h2 := hp.2 w (by rw [g.words_head_cons, List.drop_one]; exact h)
      have hwN := (hmem w (g.mem_of_mem_tail h)).1
      have hwD : ws[w.index] = w := by
        have := (hmem w (g.mem_of_mem_tail h)).2
        rwa [List.getD_eq_getElem _ _ hwN] at this
      rw [heterogrammic_getD hwN, hwD] at h2
      have h3 := List.elem_iff.mp h2
      have h4 := (mem_hetRow hv).mp h3
      exact ⟨by simpa using h1, h4.2.2⟩
  · rintro ⟨hjN, hall⟩
    have hhd := hall g.word g.word_mem_words
    refine ⟨⟨hhd.1, hjN, hhd.2⟩, ?_⟩
    rw [Bool.and_eq_true, List.all_eq_true, List.all_eq_true]
    constructor
    · intro w hw
      simpa using (hall w hw).1
    · intro w hw
      rw [g.words_head_cons, List.drop_one] at hw
      have hwmem := g.mem_of_mem_tail hw
      have hwN := (hmem w hwmem).1
      have hwD : ws[w.index] = w := by
        have := (hmem w hwmem).2
        rwa [List.getD_eq_getElem _ _ hwN] at this
      rw [heterogrammic_getD hwN, hwD]
      apply List.elem_iff.mpr
      apply (mem_hetRow hv).mpr
      exact ⟨(hall w hwmem).1, hjN, (hall w hwmem).2⟩

theorem extendCandidates_nodup {ws : List Word} (hv : validWords ws)
    {g : WordGroup} (hg : goodGroup ws g) :
    (extendCandidates (heterogrammic ws) g).Nodup := by
  obtain ⟨-, -, hmem, -, -⟩ := hg
  have hheadN : g.word.index < ws.length := (hmem g.word g.word_mem_words).1
  rw [extendCandidates, seedSet, heterogrammic_getD hheadN]
  exact (hetRow_nodup hv _).filter _

/- ### Extension lemmas -/

theorem add_eq_some_iff {g : WordGroup} {w : Word} {g' : WordGroup} :
    g.add w = some g' ↔
      w.letters &&& g.letters = 0 ∧
        g' = { length := 1 + g.length, letters := g.letters ||| w.letters
               node := .link w g.node } := by
  rw [WordGroup.add]
  by_cases h : w.letters &&& g.letters = 0 <;> simp [h, eq_comm]

theorem filterMap_eq_map_of_some {α β : Type} {l : List α} {f : α → Option β}
    {h : α → β} (hfa : ∀ a ∈ l, f a = some (h a)) :
    l.filterMap f = l.map h := by
  induction l with
  | nil => rfl
  | cons a t ih =>
    rw [List.filterMap_cons, hfa a (List.mem_cons_self a t), List.map_cons,
      ih fun b hb => hfa b (List.mem_cons_of_mem a hb)]

theorem add_of_candidate {ws : List Word} (hv : validWords ws)
    {g : WordGroup} (hg : goodGroup ws g) {j : Nat}
    (hj : j ∈ extendCandidates (heterogrammic ws) g) :
    g.add (ws.getD j default) = some (extGroup ws g j) := by
  rcases (mem_extendCandidates hv hg).mp hj with ⟨hjN, hall⟩
  apply add_eq_some_iff.mpr
  constructor
  · rw [hg.2.1, land_unionMask_eq_zero]
    intro v hv2
    have h1 := (hall v hv2).2
    rw [maskAt] at h1
    rw [Nat.land_comm]
    exact h1
  · rfl

theorem extGroup_words {ws : List Word} {g : WordGroup} {j : Nat} :
    (extGroup ws g j).words = ws.getD j default :: g.words := rfl

theorem chainIds_extGroup {ws : List Word} (hv : validWords ws)
    {g : WordGroup} {j : Nat} (hjN : j < ws.length) :
    chainIds (extGroup ws g j) = j :: chainIds g := by
  rw [chainIds, extGroup_words, List.map_cons, List.getD_eq_getElem _ _ hjN,
    valid_getElem_index hv hjN]
  rfl

theorem extGroup_good {ws : List Word} (hv : validWords ws)
    {g : WordGroup} (hg : goodGroup ws g) {j : Nat}
    (hj : j ∈ extendCandidates (heterogrammic ws) g) :
    goodGroup ws (extGroup ws g j) := by
  rcases (mem_extendCandidates hv hg).mp hj with ⟨hjN, hall⟩
  obtain ⟨hlen, hmask, hmem, hids, hdisj⟩ := hg
  have hwjD : ws.getD j default = ws[j] := List.getD_eq_getElem _ _ hjN
  have hwj_index : (ws.getD j default).index = j := by
    rw [hwjD]; exact valid_getElem_index hv hjN
  refine ⟨?_, ?_, ?_, ?_, ?_⟩
  · show 1 + g.length = (ws.getD j default :: g.words).length
    rw [List.length_cons, hlen]
    omega
  · show g.letters ||| (ws.getD j default).letters =
      unionMask (ws.getD j default :: g.words)
    show _ = (ws.getD j default).letters ||| unionMask g.words
    rw [hmask, Nat.lor_comm]
  · intro w hw
    rcases List.mem_cons.mp hw with rfl | hw2
    · constructor
      · rw [hwj_index]; exact hjN
      · rw [hwj_index, hwjD]
    · exact hmem w hw2
  · rw [chainIds_extGroup hv hjN, List.pairwise_cons]
    refine ⟨?_, hids⟩
    intro i hi
    rcases List.mem_map.mp hi with ⟨w, hw, rfl⟩
    exact (hall w hw).1
  · rw [extGroup_words, List.pairwise_cons]
    refine ⟨?_, hdisj⟩
    intro v hv2
    have h1 := (hall v hv2).2
    rw [maskAt] at h1
    rw [Nat.land_comm]
    exact h1

theorem mem_step {ws : List Word} (hv : validWords ws)
    {gs : List WordGroup} (hgs : ∀ g ∈ gs, goodGroup ws g) {g' : WordGroup} :
    g' ∈ step ws (heterogrammic ws) gs ↔
      ∃ g ∈ gs, ∃ j ∈ extendCandidates (heterogrammic ws) g,
        g' = extGroup ws g j := by
  rw [step, List.mem_flatMap]
  constructor
  · rintro ⟨g, hg, hmem⟩
    rw [filterMap_eq_map_of_some
      (fun j hj => add_of_candidate hv (hgs g hg) hj)] at hmem
    rcases List.mem_map.mp hmem with ⟨j, hj, rfl⟩
    exact ⟨g, hg, j, hj, rfl⟩
  · rintro ⟨g, hg, j, hj, rfl⟩
    refine ⟨g, hg, ?_⟩
    rw [filterMap_eq_map_of_some
      (fun j hj => add_of_candidate hv (hgs g hg) hj)]
    exact List.mem_map_of_mem _ hj

/- ### The generation invariant -/

theorem singleton_good {ws : List Word} (hv : validWords ws) {w : Word}
    (hw : w ∈ ws) : goodGroup ws (WordGroup.new w) := by
  refine ⟨rfl, ?_, ?_, ?_, ?_⟩
  · show w.letters = w.letters ||| 0
    simp
  · intro v hv2
    have : v = w := by simpa [WordGroup.words, WordGroup.new, GroupNode.words]
      using hv2
    subst this
    rcases valid_mem hv hw with ⟨h1, h2⟩
    exact ⟨h1, by rw [List.getD_eq_getElem _ _ h1, h2]⟩
  · simp [chainIds, WordGroup.words, WordGroup.new, GroupNode.words]
  · simp [WordGroup.words, WordGroup.new, GroupNode.words]

theorem gen_good {ws : List Word} (hv : validWords ws) :
    ∀ k, ∀ g ∈ gen ws k, goodGroup ws g := by
  intro k
  induction k with
  | zero =>
    intro g hg
    rcases List.mem_map.mp hg with ⟨w, hw, rfl⟩
    exact singleton_good hv hw
  | succ k ih =>
    intro g hg
    rcases (mem_step hv ih).mp hg with ⟨g0, hg0, j, hj, rfl⟩
    exact extGroup_good hv (ih g0 hg0) hj

theorem maskAt_of_good {ws : List Word} {g : WordGroup}
    (hg : goodGroup ws g) {w : Word} (hw : w ∈ g.words) :
    maskAt ws w.index = w.letters := by
  rw [maskAt, (hg.2.2.1 w hw).2]

/- ### Generation membership equals the brute-force enumeration -/

theorem chainIds_gen_iff {ws : List Word} (hv : validWords ws) :
    ∀ k l, l ∈ (gen ws k).map chainIds ↔
      disjointSubset ws l ∧ l.length = k + 1 := by
  intro k
  induction k with
  | zero =>
    intro l
    show l ∈ (ws.map WordGroup.new).map chainIds ↔ _
    rw [List.map_map]
    constructor
    · intro h
      rcases List.mem_map.mp h with ⟨w, hw, rfl⟩
      rcases valid_mem hv hw with ⟨h1, -⟩
      exact ⟨⟨by simp [chainIds, WordGroup.words, WordGroup.new,
          GroupNode.words],
        by simpa [chainIds, WordGroup.words, WordGroup.new,
          GroupNode.words] using h1,
        by simp [chainIds, WordGroup.words, WordGroup.new,
          GroupNode.words]⟩, rfl⟩
    · rintro ⟨⟨-, hbound, -⟩, hlen⟩
      rcases l with - | ⟨i, t⟩
      · simp at hlen
      · have ht : t = [] := by
          rw [List.length_cons] at hlen
          exact List.length_eq_zero.mp (by omega)
        subst ht
        have hiN : i < ws.length := hbound i (List.mem_cons_self i [])
        apply List.mem_map.mpr
        exact ⟨ws[i], List.getElem_mem hiN,
          by simp [chainIds, WordGroup.words, WordGroup.new,
            GroupNode.words, valid_getElem_index hv hiN]⟩
  | succ k ih =>
    intro l
    constructor
    · intro h
      rcases List.mem_map.mp h with ⟨g', hg', rfl⟩
      rcases (mem_step hv (gen_good hv k)).mp hg' with ⟨g, hg, j, hj, rfl⟩
      have hgood := gen_good hv k g hg
      rcases (mem_extendCandidates hv hgood).mp hj with ⟨hjN, hall⟩
      have hprev := (ih (chainIds g)).mp (List.mem_map_of_mem chainIds hg)
      obtain ⟨⟨hgt, hbound, hdisj⟩, hlen⟩ := hprev
      rw [chainIds_extGroup hv hjN]
      refine ⟨⟨?_, ?_, ?_⟩, by simp [hlen]⟩
      · rw [List.pairwise_cons]
        refine ⟨?_, hgt⟩
        intro i hi
        rcases List.mem_map.mp hi with ⟨w, hw, rfl⟩
        exact (hall w hw).1
      · intro i hi
        rcases List.mem_cons.mp hi with rfl | hi2
        · exact hjN
        · exact hbound i hi2
      · rw [List.pairwise_cons]
        refine ⟨?_, hdisj⟩
        intro i hi
        rcases List.mem_map.mp hi with ⟨w, hw, rfl⟩
        rw [maskAt_of_good hgood hw, Nat.land_comm]
        exact (hall w hw).2
    · rintro ⟨⟨hgt, hbound, hdisj⟩, hlen⟩
      rcases l with - | ⟨j, t⟩
      · simp at hlen
      · have hlent : t.length = k + 1 := by
          rw [List.length_cons] at hlen
          omega
        rcases List.mem_map.mp ((ih t).mpr
            ⟨⟨(List.pairwise_cons.mp hgt).2,
              fun i hi => hbound i (List.mem_cons_of_mem j hi),
              (List.pairwise_cons.mp hdisj).2⟩, hlent⟩)
          with ⟨g, hg, hcg⟩
        have hgood := gen_good hv k g hg
        have hjN : j < ws.length := hbound j (List.mem_cons_self j t)
        have hj : j ∈ extendCandidates (heterogrammic ws) g := by
          apply (mem_extendCandidates hv hgood).mpr
          refine ⟨hjN, ?_⟩
          intro w hw
          have hw_id : w.index ∈ t := by
            rw [← hcg]
            exact List.mem_map_of_mem Word.index hw
          constructor
          · exact (List.pairwise_cons.mp hgt).1 w.index hw_id
          · rw [← maskAt_of_good hgood hw, Nat.land_comm]
            exact (List.pairwise_cons.mp hdisj).1 w.index hw_id
        apply List.mem_map.mpr
        refine ⟨extGroup ws g j, ?_, ?_⟩
        · exact (mem_step hv (gen_good hv k)).mpr ⟨g, hg, j, hj, rfl⟩
        · rw [chainIds_extGroup hv hjN, hcg]

/- ### No generation contains two groups with the same member-id list -/

theorem gen_chainIds_nodup {ws : List Word} (hv : validWords ws) :
    ∀ k, ((gen ws k).map chainIds).Nodup := by
  intro k
  induction k with
  | zero =>
    show ((ws.map WordGroup.new).map chainIds).Nodup
    rw [List.map_map]
    have heq : ws.map (chainIds ∘ WordGroup.new) =
        (ws.map Word.index).map (fun i => [i]) := by
      rw [List.map_map]
      rfl
    rw [heq, hv]
    exact (List.nodup_range _).map fun a b h => by simpa using h
  | succ k ih =>
    show ((step ws (heterogrammic ws) (gen ws k)).map chainIds).Nodup
    rw [step, List.map_flatMap]
    apply List.nodup_flatMap.mpr
    have hmapform : ∀ g ∈ gen ws k,
        ((extendCandidates (heterogrammic ws) g).filterMap
          (fun j => g.add (ws.getD j default))).map chainIds =
        (extendCandidates (heterogrammic ws) g).map
          (fun j => j :: chainIds g) := by
      intro g hg
      have hgood := gen_good hv k g hg
      rw [filterMap_eq_map_of_some
        (fun j hj => add_of_candidate hv hgood hj), List.map_map]
      apply List.map_congr_left
      intro j hj
      exact chainIds_extGroup hv
        ((mem_extendCandidates hv hgood).mp hj).1
    constructor
    · intro g hg
      rw [hmapform g hg]
      exact ((extendCandidates_nodup hv (gen_good hv k g hg)).map
        fun a b h => by simpa using h)
    · have hpw : (gen ws k).Pairwise
          (fun g1 g2 => chainIds g1 ≠ chainIds g2) := by
        have := ih
        rw [List.Nodup, List.pairwise_map] at this
        exact this
      apply hpw.imp_of_mem
      intro g1 g2 hg1 hg2 hne
      show Function.onFun List.Disjoint _ g1 g2
      rw [Function.onFun_apply, hmapform g1 hg1, hmapform g2 hg2]
      intro x hx1 hx2
      rcases List.mem_map.mp hx1 with ⟨j1, -, rfl⟩
      rcases List.mem_map.mp hx2 with ⟨j2, -, heq2⟩
      exact hne (by injection heq2 with h1 h2; exact h2.symm)

/- ### Strictly decreasing lists are determined by their member set -/

theorem sorted_gt_eq_of_mem_iff :
    ∀ {l1 l2 : List Nat}, l1.Pairwise (· > ·) → l2.Pairwise (· > ·) →
      (∀ a, a ∈ l1 ↔ a ∈ l2) → l1 = l2 := by
  intro l1 l2 h1 h2 hmem
  haveI : IsAntisymm Nat (· > ·) := ⟨fun a b ha hb => absurd hb (lt_asymm ha)⟩
  have n1 : l1.Nodup := h1.imp fun h => Nat.ne_of_gt h
  have n2 : l2.Nodup := h2.imp fun h => Nat.ne_of_gt h
  have hfin : l1.toFinset = l2.toFinset := by
    apply Finset.ext
    intro a
    rw [List.mem_toFinset, List.mem_toFinset]
    exact hmem a
  exact List.eq_of_perm_of_sorted
    (List.perm_of_nodup_nodup_toFinset_eq n1 n2 hfin) h1 h2

/- ### Alphabet-counting lemmas (termination bound) -/

theorem alphaBits_disjoint {m n : Nat} (h : m &&& n = 0) :
    Disjoint (alphaBits m) (alphaBits n) := by
  rw [Finset.disjoint_left]
  intro i hi hin
  rw [alphaBits, Finset.mem_filter] at hi hin
  rcases land_eq_zero_iff.mp h i with h1 | h1
  · rw [hi.2] at h1
    simp at h1
  · rw [hin.2] at h1
    simp at h1

theorem mem_unionBits {l : List Word} {i : Nat} :
    i ∈ unionBits l ↔ ∃ w ∈ l, i ∈ alphaBits w.letters := by
  induction l with
  | nil => simp [unionBits]
  | cons w t ih =>
    show i ∈ alphaBits w.letters ∪ unionBits t ↔ _
    rw [Finset.mem_union, ih]
    simp

theorem unionBits_subset_range (l : List Word) :
    unionBits l ⊆ Finset.range 26 := by
  intro i hi
  rcases mem_unionBits.mp hi with ⟨w, -, hw⟩
  rw [alphaBits, Finset.mem_filter] at hw
  exact hw.1

theorem unionBits_card {l : List Word}
    (hdisj : l.Pairwise (fun w v => w.letters &&& v.letters = 0))
    (h5 : ∀ w ∈ l, bitsCard w.letters = 5) :
    (unionBits l).card = 5 * l.length := by
  induction l with
  | nil => simp [unionBits]
  | cons w t ih =>
    rcases List.pairwise_cons.mp hdisj with ⟨hhead, htail⟩
    have hd : Disjoint (alphaBits w.letters) (unionBits t) := by
      rw [Finset.disjoint_left]
      intro i hi hit
      rcases mem_unionBits.mp hit with ⟨v, hvt, hiv⟩
      have := alphaBits_disjoint (hhead v hvt)
      exact (Finset.disjoint_left.mp this hi) hiv
    show (alphaBits w.letters ∪ unionBits t).card = _
    rw [Finset.card_union_of_disjoint hd,
      ih htail fun v hv => h5 v (List.mem_cons_of_mem w hv)]
    have h1 : (alphaBits w.letters).card = 5 :=
      h5 w (List.mem_cons_self w t)
    rw [h1, List.length_cons]
    ring

theorem words_length_le_five {l : List Word}
    (hdisj : l.Pairwise (fun w v => w.letters &&& v.letters = 0))
    (h5 : ∀ w ∈ l, bitsCard w.letters = 5) : l.length ≤ 5 := by
  have h1 := unionBits_card hdisj h5
  have h2 := Finset.card_le_card (unionBits_subset_range l)
  rw [Finset.card_range, h1] at h2
  omega

theorem good_mem_registry {ws : List Word} {g : WordGroup}
    (hg : goodGroup ws g) {w : Word} (hw : w ∈ g.words) : w ∈ ws := by
  rcases hg.2.2.1 w hw with ⟨h1, h2⟩
  rw [List.getD_eq_getElem _ _ h1] at h2
  exact h2 ▸ List.getElem_mem h1

theorem gen_words_length {ws : List Word} (hv : validWords ws) {k : Nat}
    {g : WordGroup} (hg : g ∈ gen ws k) : g.words.length = k + 1 := by
  have h := (chainIds_gen_iff hv k (chainIds g)).mp
    (List.mem_map_of_mem chainIds hg)
  simpa [chainIds] using h.2

theorem gen_empty_of_ge_five {ws : List Word} (hv : validWords ws)
    (h5 : ∀ w ∈ ws, bitsCard w.letters = 5) {k : Nat} (hk : 5 ≤ k) :
    gen ws k = [] := by
  rw [List.eq_nil_iff_forall_not_mem]
  intro g hg
  have hgood := gen_good hv k g hg
  have hle := words_length_le_five hgood.2.2.2.2
    fun w hw => h5 w (good_mem_registry hgood hw)
  have hlen := gen_words_length hv hg
  omega

/- ### Anagram-map lemmas -/

theorem addAnagram_fst (m : List (Nat × List String)) (w : String) :
    (addAnagram m w).map Prod.fst =
      if word_letters w ∈ m.map Prod.fst then m.map Prod.fst
      else m.map Prod.fst ++ [word_letters w] := by
  induction m with
  | nil => simp [addAnagram]
  | cons kv t ih =>
    rcases kv with ⟨k, v⟩
    by_cases hk : k = word_letters w
    · subst hk
      simp [addAnagram]
    · rw [addAnagram]
      simp only [if_neg hk, List.map_cons, List.mem_cons]
      by_cases hmem : word_letters w ∈ t.map Prod.fst
      · rw [if_pos (Or.inr hmem), ih, if_pos hmem]
      · rw [if_neg ?_, ih, if_neg hmem, List.cons_append]
        rintro (h | h)
        · exact hk h.symm
        · exact hmem h

theorem mapInv_tail {kv : Nat × List String} {t : List (Nat × List String)}
    (h : mapInv (kv :: t)) : mapInv t :=
  ⟨(List.pairwise_cons.mp h.1).2,
    fun x hx => h.2 x (List.mem_cons_of_mem kv hx)⟩

theorem addAnagram_inv {m : List (Nat × List String)} {w : String}
    (h : mapInv m) : mapInv (addAnagram m w) := by
  induction m with
  | nil =>
    refine ⟨by simp [addAnagram], ?_⟩
    intro kv hkv
    rw [addAnagram] at hkv
    rcases List.mem_cons.mp hkv with rfl | h2
    · exact ⟨by simp, by simp⟩
    · simp at h2
  | cons kv t ih =>
    rcases kv with ⟨k, v⟩
    by_cases hk : k = word_letters w
    · subst hk
      rw [addAnagram, if_pos rfl]
      constructor
      · simpa using h.1
      · intro x hx
        rcases List.mem_cons.mp hx with rfl | h2
        · refine ⟨by simp, ?_⟩
          intro u hu
          rcases List.mem_append.mp hu with h3 | h3
          · exact (h.2 (word_letters w, v) (List.mem_cons_self _ _)).2 u h3
          · rw [List.mem_singleton.mp h3]
        · exact h.2 x (List.mem_cons_of_mem _ h2)
    · rw [addAnagram, if_neg hk]
      have hinv_t := ih (mapInv_tail h)
      have hknot : k ∉ t.map Prod.fst := by
        have h1 := h.1
        rw [List.map_cons] at h1
        intro hkmem
        exact (List.pairwise_cons.mp h1).1 k hkmem rfl
      constructor
      · rw [List.map_cons]
        apply List.pairwise_cons.mpr
        refine ⟨?_, hinv_t.1⟩
        intro x hx
        rw [addAnagram_fst] at hx
        by_cases hmem : word_letters w ∈ t.map Prod.fst
        · rw [if_pos hmem] at hx
          rintro rfl
          exact hknot hx
        · rw [if_neg hmem] at hx
          rcases List.mem_append.mp hx with h3 | h3
          · rintro rfl
            exact hknot h3
          · rintro rfl
            exact hk (List.mem_singleton.mp h3)
      · intro x hx
        rcases List.mem_cons.mp hx with rfl | h2
        · exact h.2 (k, v) (List.mem_cons_self _ _)
        · exact hinv_t.2 x h2

theorem addAnagram_mem_fst {m : List (Nat × List String)} {w : String}
    {x : Nat} :
    x ∈ (addAnagram m w).map Prod.fst ↔
      x ∈ m.map Prod.fst ∨ x = word_letters w := by
  rw [addAnagram_fst]
  by_cases h : word_letters w ∈ m.map Prod.fst
  · rw [if_pos h]
    constructor
    · exact Or.inl
    · rintro (hx | rfl)
      · exact hx
      · exact h
  · rw [if_neg h]
    simp

theorem foldl_addAnagram_inv (ws : List String) :
    ∀ m, mapInv m → mapInv (ws.foldl addAnagram m) ∧
      ∀ x, x ∈ (ws.foldl addAnagram m).map Prod.fst ↔
        x ∈ m.map Prod.fst ∨ x ∈ ws.map word_letters := by
  induction ws with
  | nil =>
    intro m hm
    exact ⟨hm, fun x => by simp⟩
  | cons a t ih =>
    intro m hm
    rcases ih (addAnagram m a) (addAnagram_inv hm) with ⟨h1, h2⟩
    refine ⟨h1, fun x => ?_⟩
    show x ∈ (t.foldl addAnagram (addAnagram m a)).map Prod.fst ↔ _
    rw [h2 x, addAnagram_mem_fst, List.map_cons, List.mem_cons]
    tauto

theorem anagramClasses_inv (ws : List String) :
    mapInv (anagramClasses ws) ∧
      ∀ x, x ∈ (anagramClasses ws).map Prod.fst ↔
        x ∈ ws.map word_letters := by
  have hbase : mapInv ([] : List (Nat × List String)) :=
    ⟨List.nodup_nil, by simp⟩
  rcases foldl_addAnagram_inv ws [] hbase with ⟨h1, h2⟩
  exact ⟨h1, fun x => by simpa using h2 x⟩

theorem representatives_masks (ws : List String) :
    (representatives ws).map word_letters =
      (anagramClasses ws).map Prod.fst := by
  rw [representatives, List.map_map]
  apply List.map_congr_left
  intro kv hkv
  rcases (anagramClasses_inv ws).1.2 kv hkv with ⟨hne, hval⟩
  show word_letters (kv.2.headD "") = kv.1
  rcases hkv2 : kv.2 with - | ⟨w0, v⟩
  · exact absurd hkv2 hne
  · exact hval w0 (by rw [hkv2]; exact List.mem_cons_self _ _)

/- ### Claim theorems -/

/-- C1: for every validated registry and every `k`, the groups produced by
the fixpoint expander, each reduced to its set of member word ids, are
exactly the `(k+1)`-element subsets of the registry ids whose letter masks
are pairwise disjoint (`gen ws k` holds the groups with `k+1` members, the
generation the loop prints at index `k+1`). -/
theorem c1_gen_eq_brute_force (ws : List Word) (hv : validWords ws) (k : Nat)
    (s : Finset Nat) :
    (∃ g ∈ gen ws k, (chainIds g).toFinset = s) ↔
      s.card = k + 1 ∧ (∀ i ∈ s, i < ws.length) ∧
        ∀ i ∈ s, ∀ j ∈ s, i ≠ j → maskAt ws i &&& maskAt ws j = 0 := by
  constructor
  · rintro ⟨g, hg, rfl⟩
    have hchar := (chainIds_gen_iff hv k (chainIds g)).mp
      (List.mem_map_of_mem chainIds hg)
    obtain ⟨⟨hgt, hbound, hdisj⟩, hlen⟩ := hchar
    have hnd : (chainIds g).Nodup := hgt.imp fun h => Nat.ne_of_gt h
    refine ⟨?_, ?_, ?_⟩
    · rw [List.toFinset_card_of_nodup hnd, hlen]
    · intro i hi
      exact hbound i (List.mem_toFinset.mp hi)
    · intro i hi j hj hne
      have hsymm : Symmetric (fun i j => maskAt ws i &&& maskAt ws j = 0) := by
        intro a b h
        rw [Nat.land_comm]
        exact h
      exact List.Pairwise.forall hsymm hdisj (List.mem_toFinset.mp hi)
        (List.mem_toFinset.mp hj) hne
  · rintro ⟨hcard, hbound, hdisj⟩
    have hsort : (s.sort (· ≤ ·)).Pairwise (· < ·) := s.sort_sorted_lt
    have hmeml : ∀ a, a ∈ (s.sort (· ≤ ·)).reverse ↔ a ∈ s := by
      intro a
      rw [List.mem_reverse, Finset.mem_sort]
    have hgt : (s.sort (· ≤ ·)).reverse.Pairwise (· > ·) := by
      rw [List.pairwise_reverse]
      exact hsort
    have hlen : (s.sort (· ≤ ·)).reverse.length = k + 1 := by
      rw [List.length_reverse, Finset.length_sort, hcard]
    have hdisj2 : (s.sort (· ≤ ·)).reverse.Pairwise
        (fun i j => maskAt ws i &&& maskAt ws j = 0) := by
      apply hgt.imp_of_mem
      intro a b ha hb hab
      exact hdisj a ((hmeml a).mp ha) b ((hmeml b).mp hb) (Nat.ne_of_gt hab)
    have hmem : (s.sort (· ≤ ·)).reverse ∈ (gen ws k).map chainIds :=
      (chainIds_gen_iff hv k _).mpr
        ⟨⟨hgt, fun i hi => hbound i ((hmeml i).mp hi), hdisj2⟩, hlen⟩
    rcases List.mem_map.mp hmem with ⟨g, hg, hcg⟩
    refine ⟨g, hg, ?_⟩
    apply Finset.ext
    intro a
    rw [List.mem_toFinset, hcg]
    exact hmeml a

/-- Witness for C1 at the concrete registry `ws3` (`"a"`, `"b"`, `"ab"`):
the id set `{0, 1}` is realised at generation 2 and satisfies the
brute-force description. -/
theorem c1_gen_eq_brute_force_witness :
    (∃ g ∈ gen ws3 1, (chainIds g).toFinset = ({0, 1} : Finset Nat)) ↔
      ({0, 1} : Finset Nat).card = 1 + 1 ∧
        (∀ i ∈ ({0, 1} : Finset Nat), i < ws3.length) ∧
        ∀ i ∈ ({0, 1} : Finset Nat), ∀ j ∈ ({0, 1} : Finset Nat), i ≠ j →
          maskAt ws3 i &&& maskAt ws3 j = 0 :=
  c1_gen_eq_brute_force ws3 (by decide) 1 {0, 1}

/-- C2: `extend` (`WordGroup::add`) returns a result iff the word's letter
mask is disjoint from the group's union mask; on success the new union mask
is the bitwise union and the length grows by exactly one. -/
theorem c2_add_spec (g : WordGroup) (w : Word) :
    ((g.add w).isSome ↔ w.letters &&& g.letters = 0) ∧
    (g.add w).map WordGroup.letters =
      (if w.letters &&& g.letters = 0 then some (g.letters ||| w.letters)
       else none) ∧
    (g.add w).map WordGroup.length =
      (if w.letters &&& g.letters = 0 then some (g.length + 1) else none) := by
  rw [WordGroup.add]
  by_cases h : w.letters &&& g.letters = 0
  · simp [h, Nat.add_comm]
  · simp [h]

/-- C3: for every group reachable during the search, the word ids along the
chain, read from the youngest member back toward the first, are strictly
decreasing — equivalently each node's id is the smallest seen so far at
every prefix of the traversal, so the ids grow from the first-added word
toward the youngest. -/
theorem c3_chain_sorted (ws : List Word) (hv : validWords ws) (k : Nat)
    (g : WordGroup) (hg : g ∈ gen ws k) :
    (chainIds g).Pairwise (· > ·) :=
  (gen_good hv k g hg).2.2.2.1

/-- Witness for C3: the reachable group `g01` with chain ids `[1, 0]`. -/
theorem c3_chain_sorted_witness :
    g01 ∈ gen ws3 1 ∧ (chainIds g01).Pairwise (· > ·) :=
  ⟨by decide, c3_chain_sorted ws3 (by decide) 1 g01 (by decide)⟩

/-- C4 counterexample: the claim says candidates are seeded from the
adjacency set of the group's *first-added* word, found by traversing to the
chain's root. The code seeds from `heterogrammic[g.word().index]`, and
`g.word()` is the chain head — the *most recently added* member, with no
traversal. At the reachable group `g01` (members 0 then 1 of `ws3`) the
row the code uses, `heterogrammic[1] = []`, differs from the first-added
word's row `heterogrammic[0] = [1]`. -/
theorem c4_counterexample :
    g01 ∈ gen ws3 1 ∧
      seedSet (heterogrammic ws3) g01 ≠ claimSeed (heterogrammic ws3) g01 := by
  decide

/-- C4 (amended): candidates are seeded from the adjacency row of the most
recently added member (the chain head `g.word()`), then refined by requiring
every member's id to lie below the candidate and the candidate to lie in the
adjacency row of every member other than the head; the surviving candidate
ids are exactly the registry ids that exceed every member's id and whose
letter mask is disjoint from every member's mask. -/
theorem c4_candidates (ws : List Word) (hv : validWords ws) (k : Nat)
    (g : WordGroup) (hg : g ∈ gen ws k) (j : Nat) :
    j ∈ extendCandidates (heterogrammic ws) g ↔
      j < ws.length ∧
        ∀ w ∈ g.words, w.index < j ∧ w.letters &&& maskAt ws j = 0 :=
  mem_extendCandidates hv (gen_good hv k g hg)

/-- Witness for C4 (amended) at the singleton group of word 0 of `ws3` and
candidate id 1. -/
theorem c4_candidates_witness :
    1 ∈ extendCandidates (heterogrammic ws3) (WordGroup.new (Word.new 0 "a")) ↔
      1 < ws3.length ∧
        ∀ w ∈ (WordGroup.new (Word.new 0 "a")).words,
          w.index < 1 ∧ w.letters &&& maskAt ws3 1 = 0 :=
  c4_candidates ws3 (by decide) 0 (WordGroup.new (Word.new 0 "a")) (by decide) 1

/-- C5: within a single generation, no two groups have the identical set of
member word ids. -/
theorem c5_no_duplicate_groups (ws : List Word) (hv : validWords ws)
    (k : Nat) :
    ((gen ws k).map chainIds).Pairwise
      (fun l1 l2 => l1.toFinset ≠ l2.toFinset) := by
  have hne : ((gen ws k).map chainIds).Pairwise (· ≠ ·) :=
    gen_chainIds_nodup hv k
  apply hne.imp_of_mem
  intro l1 l2 h1 h2 hne12 hfin
  apply hne12
  rcases List.mem_map.mp h1 with ⟨g1, hg1, rfl⟩
  rcases List.mem_map.mp h2 with ⟨g2, hg2, rfl⟩
  exact sorted_gt_eq_of_mem_iff
    (gen_good hv k g1 hg1).2.2.2.1 (gen_good hv k g2 hg2).2.2.2.1
    (fun a => by rw [← List.mem_toFinset, hfin, List.mem_toFinset])

/-- Witness for C5 at the concrete registry `ws3`, generation of length-2
groups. -/
theorem c5_no_duplicate_groups_witness :
    ((gen ws3 1).map chainIds).Pairwise
      (fun l1 l2 => l1.toFinset ≠ l2.toFinset) :=
  c5_no_duplicate_groups ws3 (by decide) 1

/-- C6: the search is deterministic: the groups of every generation are
independent of the random stream feeding the progress-display sampling, and
coincide with the pure generation function of the registry. -/
theorem c6_deterministic (ws : List Word) (rng1 rng2 : Nat → List Nat)
    (k : Nat) :
    (runR ws rng1 k).1 = (runR ws rng2 k).1 ∧
      (runR ws rng1 k).1 = gen ws k := by
  induction k with
  | zero => exact ⟨rfl, rfl⟩
  | succ k ih =>
    have h1 : ∀ rng : Nat → List Nat,
        (runR ws rng (k + 1)).1 =
          step ws (heterogrammic ws) (runR ws rng k).1 :=
      fun rng => rfl
    constructor
    · rw [h1 rng1, h1 rng2, ih.1]
    · rw [h1 rng1, ih.2]
      rfl

/-- C7: for a registry of 5-letter words (each mask has exactly five
alphabet bits), every generation of groups with six or more members is
empty — six pairwise-disjoint 5-bit masks would need 30 distinct letters in
a 26-letter alphabet — so the loop hits the empty generation and stops
after at most 26/5 = 5 non-empty generations. -/
theorem c7_termination (ws : List Word) (hv : validWords ws)
    (h5 : ∀ w ∈ ws, bitsCard w.letters = 5) (k : Nat) (hk : 5 ≤ k) :
    gen ws k = [] :=
  gen_empty_of_ge_five hv h5 hk

/-- Witness for C7: the two-word 5-letter registry `ws5` has an empty
length-6 generation. -/
theorem c7_termination_witness : gen ws5 5 = [] :=
  c7_termination ws5 (by decide) (by decide) 5 (by decide)

/-- C8: the anagram class reducer keeps exactly one representative per
distinct letter mask: the representatives' masks are duplicate-free, they
are exactly the masks occurring in the input, and the number of distinct
masks over the representatives equals the number of representatives. -/
theorem c8_reducer (ws : List String) :
    ((representatives ws).map word_letters).Nodup ∧
    (∀ m, m ∈ (representatives ws).map word_letters ↔
      m ∈ ws.map word_letters) ∧
    ((representatives ws).map word_letters).dedup.length =
      (representatives ws).length := by
  have h1 := anagramClasses_inv ws
  have h2 := representatives_masks ws
  have hnd : ((representatives ws).map word_letters).Nodup := by
    rw [h2]
    exact h1.1.1
  refine ⟨hnd, ?_, ?_⟩
  · intro m
    rw [h2]
    exact h1.2 m
  · rw [List.dedup_eq_self.mpr hnd, List.length_map]

/-- C9: `extend` never mutates existing structure: in this pure embedding,
on success the only new node is one `GroupNode` whose parent is `g`'s
existing chain value (shared, not copied), so the result's member sequence
is the new word consed onto `g`'s unchanged member sequence; on failure
nothing is produced. `g` itself, taken by shared reference in the source,
is left with identical length, union mask and members. -/
theorem c9_add_frame (g : WordGroup) (w : Word) :
    (g.add w).map WordGroup.node =
      (if w.letters &&& g.letters = 0 then some (GroupNode.link w g.node)
       else none) ∧
    (g.add w).map WordGroup.words =
      (if w.letters &&& g.letters = 0 then some (w :: g.words) else none) := by
  rw [WordGroup.add]
  by_cases h : w.letters &&& g.letters = 0
  · refine ⟨by simp [h], ?_⟩
    have hw : (GroupNode.link w g.node).words = w :: g.words := rfl
    simp [h, WordGroup.words, hw]
  · simp [h]

/-- C10: when the loop body runs the sampling (the generation was not
empty, because the loop breaks on an empty generation before sampling),
every sample is present — `choose` never yields `none`, so the `unwrap`
cannot panic. -/
theorem c10_sample_safe (ws : List Word) (gs : List WordGroup)
    (rs : List Nat) (out : List (Option WordGroup) × List WordGroup)
    (h : loopIteration ws gs rs = some out) : none ∉ out.1 := by
  rw [loopIteration] at h
  by_cases hgs : gs.isEmpty
  · rw [if_pos hgs] at h
    cases h
  · rw [if_neg hgs] at h
    have hlen : 0 < gs.length := by
      cases gs
      · simp at hgs
      · simp
    cases h
    intro hmem
    rcases List.mem_map.mp hmem with ⟨r, -, hr⟩
    rw [choose] at hr
    rw [List.getElem?_eq_none_iff] at hr
    exact absurd (Nat.mod_lt r hlen) (by omega)

/-- Witness for C10: a concrete non-empty generation with two sample
draws, both present. -/
theorem c10_sample_safe_witness :
    none ∉ [some (WordGroup.new (Word.new 0 "a")),
      some (WordGroup.new (Word.new 1 "b"))] :=
  c10_sample_safe ws3 (gen ws3 0) [0, 7]
    ([some (WordGroup.new (Word.new 0 "a")),
      some (WordGroup.new (Word.new 1 "b"))], [g01]) (by decide)
